import Mathlib

/-!
Verification of the swarm-tools event-sourced coordination kernel.

Shallow embedding of:
- `LibSQLAdapter.transaction` (packages/swarm-mail/src/libsql.ts)
- the durable stream adapter (packages/swarm-mail/src/streams/durable-adapter.ts)
- the beads adapter's `isEpicClosureEligible`
- the memory store's vector `search`
together with spec-modelled definitions for the event store, reservation
arbiter and projection replay whose implementations live outside the
provided sources.
-/

namespace SwarmSpec

/-! ## Transaction model (LibSQLAdapter.transaction)

The body `fn` passed to `transaction` interacts with the handed-in
transaction adapter through `exec` (statement collected, no immediate
effect) and `query` (executed immediately against the client, rows
returned to the continuation); it finishes normally or throws.  We embed
`fn` as a program tree and the adapter's `transaction` method as its
interpreter, parametrised by the database engine:
`applyStmt db s` is the state after the engine executes `s` on `db`, and
`evalQuery db s` is the row set the engine returns for `s` on `db`.
-/

/-- A transaction body: the `fn` argument of `LibSQLAdapter.transaction`,
embedded as a program tree over statements (strings). -/
inductive TxProg (ρ α : Type) where
  | done (a : α)
  | fail (msg : String)
  | exec (sql : String) (k : TxProg ρ α)
  | query (sql : String) (k : ρ → TxProg ρ α)

/-- Result of running `LibSQLAdapter.transaction fn`: the final database
state, the statements `fn` pushed via `exec` (the `txStatements` array),
and the value returned to the caller or the error surfaced to it. -/
structure TxOut (σ α : Type) where
  db : σ
  stmts : List String
  result : Except String α

/-- Interpreter for `LibSQLAdapter.transaction`, transcribed from
`libsql.ts` lines 77-119: `exec` pushes the statement onto `txStatements`
and touches nothing; `query` calls `client.execute` immediately (rows come
from the current state, and the state advances by the statement's effect);
when `fn` returns, the collected statements run as one batch; when `fn`
throws, the batch is skipped and the error is rethrown unchanged. -/
def runTx {σ ρ α : Type} (applyStmt : σ → String → σ) (evalQuery : σ → String → ρ) :
    TxProg ρ α → σ → List String → TxOut σ α
  | .done a, db, stmts => ⟨stmts.foldl applyStmt db, stmts, .ok a⟩
  | .fail m, db, stmts => ⟨db, stmts, .error m⟩
  | .exec s k, db, stmts => runTx applyStmt evalQuery k db (stmts ++ [s])
  | .query s k, db, stmts =>
      runTx applyStmt evalQuery (k (evalQuery db s)) (applyStmt db s) stmts

/-- Run of `LibSQLAdapter.transaction fn` against database state `db`. -/
def transaction {σ ρ α : Type} (applyStmt : σ → String → σ) (evalQuery : σ → String → ρ)
    (fn : TxProg ρ α) (db : σ) : TxOut σ α :=
  runTx applyStmt evalQuery fn db []

/-- The same body with every `exec` deleted.  Comparing a run of `fn` with
a run of `eraseExecs fn` states that `exec`'d statements have no effect
before the final batch. -/
def eraseExecs {ρ α : Type} : TxProg ρ α → TxProg ρ α
  | .done a => .done a
  | .fail m => .fail m
  | .exec _ k => eraseExecs k
  | .query s k => .query s (fun r => eraseExecs (k r))

theorem runTx_eraseExecs {σ ρ α : Type} (applyStmt : σ → String → σ)
    (evalQuery : σ → String → ρ) (fn : TxProg ρ α) (db : σ) (stmts : List String) :
    ∃ extra : List String,
      (runTx applyStmt evalQuery fn db stmts).stmts = stmts ++ extra ∧
      (runTx applyStmt evalQuery fn db stmts).result
        = (runTx applyStmt evalQuery (eraseExecs fn) db []).result ∧
      ((runTx applyStmt evalQuery fn db stmts).result.isOk = false →
        (runTx applyStmt evalQuery fn db stmts).db
          = (runTx applyStmt evalQuery (eraseExecs fn) db []).db) ∧
      ((runTx applyStmt evalQuery fn db stmts).result.isOk = true →
        (runTx applyStmt evalQuery fn db stmts).db
          = (stmts ++ extra).foldl applyStmt
              ((runTx applyStmt evalQuery (eraseExecs fn) db []).db)) := by
  induction fn generalizing db stmts with
  | done a =>
      refine ⟨[], by simp [runTx, eraseExecs], by simp [runTx, eraseExecs], ?_, ?_⟩
      · intro h
        simp [runTx, Except.isOk, Except.toBool] at h
      · intro _
        simp [runTx, eraseExecs]
  | fail m =>
      refine ⟨[], by simp [runTx, eraseExecs], by simp [runTx, eraseExecs], ?_, ?_⟩
      · intro _
        simp [runTx, eraseExecs]
      · intro h
        simp [runTx, Except.isOk, Except.toBool] at h
  | exec s k ih =>
      obtain ⟨extra, h1, h2, h3, h4⟩ := ih db (stmts ++ [s])
      refine ⟨s :: extra, ?_, ?_, ?_, ?_⟩
      · simpa [runTx, eraseExecs, List.append_assoc] using h1
      · simpa [runTx, eraseExecs] using h2
      · simpa [runTx, eraseExecs] using h3
      · simpa [runTx, eraseExecs, List.append_assoc] using h4
  | query s k ih =>
      obtain ⟨extra, h1, h2, h3, h4⟩ := ih (evalQuery db s) (applyStmt db s) stmts
      exact ⟨extra, by simpa [runTx, eraseExecs] using h1,
        by simpa [runTx, eraseExecs] using h2,
        by simpa [runTx, eraseExecs] using h3,
        by simpa [runTx, eraseExecs] using h4⟩

/-- Concrete demonstration engine: the database is the log of executed
statements, a query returns the current log length. -/
def demoApply (d : List String) (s : String) : List String := d ++ [s]

/-- Concrete demonstration query evaluator. -/
def demoEval (d : List String) (_ : String) : Nat := d.length

/-- Body that issues a write via `query`, then throws. -/
def demoBadFn : TxProg Nat Unit :=
  TxProg.query "INSERT INTO t VALUES (1)" (fun _ => TxProg.fail "boom")

/-- Body that `exec`s a write, then queries, then returns the row count. -/
def demoExecFn : TxProg Nat Nat :=
  TxProg.exec "w1" (TxProg.query "q" (fun n => TxProg.done n))

/-- Body that `exec`s a write and then throws. -/
def demoExecFailFn : TxProg Nat Unit :=
  TxProg.exec "w" (TxProg.fail "boom")

/-- Claim C10: inside `LibSQLAdapter.transaction fn`, statements issued via
`exec` are deferred and sent as one batch only after `fn` returns
successfully, while statements issued via `query` execute immediately;
consequently a query inside `fn` never observes the effect of an earlier
`exec` of the same transaction: the whole run behaves like the run of `fn`
with all `exec`s erased, except that on success the collected statements
are folded into the state at the very end. -/
theorem transaction_defers_execs_queries_see_no_exec_effects {σ ρ α : Type}
    (applyStmt : σ → String → σ) (evalQuery : σ → String → ρ)
    (fn : TxProg ρ α) (db : σ) :
    (transaction applyStmt evalQuery fn db).result
      = (transaction applyStmt evalQuery (eraseExecs fn) db).result ∧
    ((transaction applyStmt evalQuery fn db).result.isOk = false →
      (transaction applyStmt evalQuery fn db).db
        = (transaction applyStmt evalQuery (eraseExecs fn) db).db) ∧
    ((transaction applyStmt evalQuery fn db).result.isOk = true →
      (transaction applyStmt evalQuery fn db).db
        = (transaction applyStmt evalQuery fn db).stmts.foldl applyStmt
            ((transaction applyStmt evalQuery (eraseExecs fn) db).db)) := by
  obtain ⟨extra, h1, h2, h3, h4⟩ :=
    runTx_eraseExecs applyStmt evalQuery fn db []
  refine ⟨h2, h3, fun hok => ?_⟩
  simp only [transaction] at h1 ⊢
  rw [h1]
  simpa using h4 hok

/-- Witness for C10 at a concrete engine (a statement log) and a body that
first `exec`s a write, then queries: the query sees a state without the
exec'd write, and the write lands as the trailing batch. -/
theorem transaction_defers_execs_witness :
    (transaction demoApply demoEval demoExecFn []).result
      = (transaction demoApply demoEval (eraseExecs demoExecFn) []).result ∧
    (transaction demoApply demoEval demoExecFn []).db
      = (transaction demoApply demoEval demoExecFn []).stmts.foldl demoApply
          ((transaction demoApply demoEval (eraseExecs demoExecFn) []).db) := by
  have h := transaction_defers_execs_queries_see_no_exec_effects
    demoApply demoEval demoExecFn []
  exact ⟨h.1, h.2.2 rfl⟩

/-- Counterexample to claim C1 as stated: a write statement issued through
the transaction handle's `query` IS applied to the database although `fn`
throws afterwards — the transaction is not all-or-nothing for
query-issued writes. -/
theorem transaction_query_write_survives_error_counterexample :
    (transaction demoApply demoEval demoBadFn []).result = Except.error "boom" ∧
    ¬ ((transaction demoApply demoEval demoBadFn []).db = ([] : List String)) := by
  constructor
  · rfl
  · simp [transaction, runTx, demoApply, demoEval, demoBadFn]

/-- Claim C1 (amended): when `fn` throws, no statement issued via `exec` is
applied — the final state is exactly the state produced by the
query-issued statements alone — and the caller receives `fn`'s original
error unchanged; no rollback is attempted, so no composite rollback error
can arise. -/
theorem transaction_error_skips_batch_and_rethrows {σ ρ α : Type}
    (applyStmt : σ → String → σ) (evalQuery : σ → String → ρ)
    (fn : TxProg ρ α) (db : σ) (m : String)
    (herr : (transaction applyStmt evalQuery fn db).result = Except.error m) :
    (transaction applyStmt evalQuery fn db).db
      = (transaction applyStmt evalQuery (eraseExecs fn) db).db ∧
    (transaction applyStmt evalQuery (eraseExecs fn) db).result = Except.error m := by
  obtain ⟨extra, h1, h2, h3, h4⟩ :=
    runTx_eraseExecs applyStmt evalQuery fn db []
  constructor
  · apply h3
    simp only [transaction] at herr
    rw [herr]
    rfl
  · simp only [transaction] at h2 ⊢
    rw [← h2]
    exact herr

/-- Witness for the amended C1 at a concrete engine: the thrown error is
surfaced unchanged and the exec'd statement "w" is never applied. -/
theorem transaction_error_skips_batch_witness :
    (transaction demoApply demoEval demoExecFailFn []).db
      = (transaction demoApply demoEval (eraseExecs demoExecFailFn) []).db ∧
    (transaction demoApply demoEval (eraseExecs demoExecFailFn) []).result
      = Except.error "boom" :=
  transaction_error_skips_batch_and_rethrows
    demoApply demoEval demoExecFailFn [] "boom" rfl

/-! ## Event store and durable stream adapter

`durable-adapter.ts` is in the sources; the event-store functions it
calls (`readEvents`, `getLatestSequence`, `appendEvent` from
`store-drizzle.ts` / `streams/store.ts`) are not, so those are modelled
from the spec (§4.3). -/

/-- A stored event row (see spec §3: id, sequence, type, project_key,
timestamp in milliseconds, plus the payload fields used by the agent
projection). -/
structure AgentEvent where
  id : Nat
  sequence : Nat
  type : String
  project_key : String
  agent_name : String
  task_description : Option String
  timestamp : Nat
deriving DecidableEq

/-- Input to `appendEvent`: an event before `id` and `sequence` are
assigned. -/
structure EventInput where
  type : String
  project_key : String
  agent_name : String
  task_description : Option String
  timestamp : Nat
deriving DecidableEq

/-- Filter argument of `readEvents` (the fields used by the durable
adapter). -/
structure ReadFilter where
  projectKey : Option String
  afterSequence : Option Nat
  limit : Option Nat

/-- Row predicate of `readEvents`: optional project filter, strict
`sequence > afterSequence`. -/
def matchesFilter (f : ReadFilter) (e : AgentEvent) : Bool :=
  (match f.projectKey with
   | none => true
   | some pk => e.project_key == pk) &&
  (match f.afterSequence with
   | none => true
   | some a => decide (a < e.sequence))

/-- Modelled from the spec: `readEvents` (implementation in
`store-drizzle.ts`, not among the sources) returns the stored events
matching the filter in ascending `sequence` order — the stored log is
kept in insertion order, which coincides with sequence order — truncated
to `limit` when given. -/
def readEventsM (log : List AgentEvent) (f : ReadFilter) : List AgentEvent :=
  let rows := log.filter (matchesFilter f)
  match f.limit with
  | none => rows
  | some n => rows.take n

/-- Modelled from the spec: `getLatestSequence(projectKey?)` (implementation
not among the sources) returns the maximum stored `sequence` among events
of the given project (all events when no project is given), and 0 when
there are none. -/
def getLatestSequenceM (log : List AgentEvent) (pk : Option String) : Nat :=
  (log.filter (fun e =>
    match pk with
    | none => true
    | some k => e.project_key == k)).foldl (fun acc e => max acc e.sequence) 0

/-- Modelled from the spec: `appendEvent` (implementation not among the
sources) assigns the next sequence from a monotonic DB source
(auto-increment: one more than the current maximum) and inserts the row. -/
def appendEventM (log : List AgentEvent) (inp : EventInput) : List AgentEvent × AgentEvent :=
  let seq := getLatestSequenceM log none + 1
  let e : AgentEvent :=
    ⟨seq, seq, inp.type, inp.project_key, inp.agent_name, inp.task_description, inp.timestamp⟩
  (log ++ [e], e)

/-- The log after a sequence of `appendEvent` calls starting from an empty
database. -/
def appendAllM (inps : List EventInput) : List AgentEvent :=
  inps.foldl (fun log i => (appendEventM log i).1) []

/-- Wire format `StreamEvent` of the Durable Streams protocol
(durable-adapter.ts): offset, JSON-encoded event, timestamp. -/
structure StreamEvent where
  offset : Nat
  data : String
  timestamp : Nat
deriving DecidableEq

/-- Encoding `JSON.stringify` of an event row, transcribed field by field. -/
def jsonEncodeEvent (e : AgentEvent) : String :=
  "\x7b\"id\":" ++ toString e.id ++
  ",\"sequence\":" ++ toString e.sequence ++
  ",\"type\":\"" ++ e.type ++
  "\",\"project_key\":\"" ++ e.project_key ++
  "\",\"agent_name\":\"" ++ e.agent_name ++
  "\",\"timestamp\":" ++ toString e.timestamp ++ "\x7d"

/-- Method `createDurableStreamAdapter(...).read(offset, limit)` from
durable-adapter.ts: `readEvents` with the adapter's project key,
`afterSequence := offset` and `limit`, mapped to `StreamEvent`s. -/
def durableRead (log : List AgentEvent) (projectKey : String) (offset limit : Nat) :
    List StreamEvent :=
  (readEventsM log ⟨some projectKey, some offset, some limit⟩).map
    (fun e => ⟨e.sequence, jsonEncodeEvent e, e.timestamp⟩)

/-- Method `createDurableStreamAdapter(...).head()` from durable-adapter.ts:
delegates to `getLatestSequence(projectKey)`. -/
def durableHead (log : List AgentEvent) (projectKey : String) : Nat :=
  getLatestSequenceM log (some projectKey)

/-- Strictly increasing sequences along the log: the event-store
invariant (spec §4.3). -/
def SeqSorted (log : List AgentEvent) : Prop :=
  log.Pairwise (fun a b => a.sequence < b.sequence)

theorem foldl_max_init_le (l : List AgentEvent) :
    ∀ init : Nat, init ≤ l.foldl (fun acc x => max acc x.sequence) init := by
  induction l with
  | nil => intro init; simp
  | cons a t ih =>
      intro init
      exact le_trans (le_max_left init a.sequence) (ih (max init a.sequence))

theorem foldl_max_le_of_mem (l : List AgentEvent) :
    ∀ (init : Nat) (e : AgentEvent), e ∈ l →
      e.sequence ≤ l.foldl (fun acc x => max acc x.sequence) init := by
  induction l with
  | nil => intro _ e he; cases he
  | cons a t ih =>
      intro init e he
      rcases List.mem_cons.1 he with h | h
      · subst h
        exact le_trans (le_max_right init e.sequence)
          (foldl_max_init_le t (max init e.sequence))
      · exact ih (max init a.sequence) e h

theorem le_getLatestSequenceM (log : List AgentEvent) (pk : Option String)
    (e : AgentEvent) (he : e ∈ log)
    (hpk : ∀ k, pk = some k → e.project_key = k) :
    e.sequence ≤ getLatestSequenceM log pk := by
  unfold getLatestSequenceM
  have hmem : e ∈ log.filter (fun x =>
      match pk with
      | none => true
      | some k => x.project_key == k) := by
    refine List.mem_filter.2 ⟨he, ?_⟩
    cases pk with
    | none => rfl
    | some k => exact beq_iff_eq.2 (hpk k rfl)
  exact foldl_max_le_of_mem _ 0 e hmem

theorem getLatestSequenceM_append (log : List AgentEvent) (pk : Option String)
    (e : AgentEvent)
    (h : (match pk with
          | none => true
          | some k => e.project_key == k) = true) :
    getLatestSequenceM (log ++ [e]) pk =
      max (getLatestSequenceM log pk) e.sequence := by
  unfold getLatestSequenceM
  rw [List.filter_append, List.foldl_append]
  simp [h]

theorem foldl_max_le_bound (l : List AgentEvent) :
    ∀ (init b : Nat), (∀ e ∈ l, e.sequence ≤ b) → init ≤ b →
      l.foldl (fun acc x => max acc x.sequence) init ≤ b := by
  induction l with
  | nil => intro _ _ _ h; simpa using h
  | cons a t ih =>
      intro init b hall hinit
      exact ih (max init a.sequence) b
        (fun e he => hall e (List.mem_cons_of_mem a he))
        (max_le hinit (hall a (List.mem_cons_self a t)))

theorem getLatestSequenceM_le_none (log : List AgentEvent) (pk : Option String) :
    getLatestSequenceM log pk ≤ getLatestSequenceM log none := by
  unfold getLatestSequenceM
  apply foldl_max_le_bound
  · intro e he
    exact le_getLatestSequenceM log none e (List.mem_filter.1 he).1 (by intro k h; cases h)
  · exact Nat.zero_le _

/-- Claim C3: `read(offset, limit)` of the durable stream adapter returns
exactly the stored events of the adapter's project with
`sequence > offset`, in ascending sequence order, truncated to at most
`limit`; each returned `StreamEvent` carries the event's sequence as its
offset, the JSON encoding of the event as its data, and the event's
millisecond timestamp. -/
theorem durableRead_spec (log : List AgentEvent) (pk : String) (off lim : Nat)
    (hsort : SeqSorted log) :
    durableRead log pk off lim
      = ((log.filter (fun e => e.project_key == pk && decide (off < e.sequence))).take lim).map
          (fun e => ⟨e.sequence, jsonEncodeEvent e, e.timestamp⟩) ∧
    (durableRead log pk off lim).Pairwise (fun a b => a.offset < b.offset) ∧
    (durableRead log pk off lim).length ≤ lim ∧
    ∀ s ∈ durableRead log pk off lim, ∃ e ∈ log,
      e.project_key = pk ∧ off < e.sequence ∧
      s.offset = e.sequence ∧ s.data = jsonEncodeEvent e ∧ s.timestamp = e.timestamp := by
  have hfn : matchesFilter ⟨some pk, some off, some lim⟩
      = fun e => e.project_key == pk && decide (off < e.sequence) := by
    funext e
    rfl
  have heq : durableRead log pk off lim
      = ((log.filter (fun e => e.project_key == pk && decide (off < e.sequence))).take lim).map
          (fun e => ⟨e.sequence, jsonEncodeEvent e, e.timestamp⟩) := by
    simp only [durableRead, readEventsM, hfn]
  refine ⟨heq, ?_, ?_, ?_⟩
  · rw [heq]
    rw [List.pairwise_map]
    have h1 : (log.filter
        (fun e => e.project_key == pk && decide (off < e.sequence))).Pairwise
        (fun a b => a.sequence < b.sequence) := hsort.filter _
    exact List.Pairwise.sublist (List.take_sublist lim _) h1
  · rw [heq, List.length_map]
    exact le_trans (List.length_take_le lim _) (le_refl _)
  · intro s hs
    rw [heq] at hs
    obtain ⟨e, he, hconv⟩ := List.mem_map.1 hs
    have he2 : e ∈ log.filter (fun e => e.project_key == pk && decide (off < e.sequence)) :=
      (List.take_sublist lim _).mem he
    obtain ⟨hmem, hpred⟩ := List.mem_filter.1 he2
    rw [Bool.and_eq_true] at hpred
    refine ⟨e, hmem, beq_iff_eq.1 hpred.1, of_decide_eq_true hpred.2, ?_, ?_, ?_⟩
    · rw [← hconv]
    · rw [← hconv]
    · rw [← hconv]

/-- Witness for C3 on a concrete two-event log. -/
theorem durableRead_spec_witness :
    durableRead
        [⟨1, 1, "agent_registered", "p", "A1", none, 10⟩,
         ⟨2, 2, "agent_active", "p", "A1", none, 20⟩] "p" 1 10
      = [⟨2, jsonEncodeEvent ⟨2, 2, "agent_active", "p", "A1", none, 20⟩, 20⟩] := by
  have h := durableRead_spec
    [⟨1, 1, "agent_registered", "p", "A1", none, 10⟩,
     ⟨2, 2, "agent_active", "p", "A1", none, 20⟩] "p" 1 10
    (by constructor <;> simp [SeqSorted])
  rw [h.1]
  rfl

/-- Claim C8: `getLatestSequence` returns 0 on an empty database (and so
does `head()`, which delegates to it); after any run of successful
`appendEvent` calls it returns the sequence assigned to the most recently
appended event, which is the maximum over all stored events; `head()`
agrees for appends within the adapter's project. -/
theorem getLatestSequence_spec :
    (∀ pk : Option String, getLatestSequenceM [] pk = 0) ∧
    (∀ pk : String, durableHead [] pk = 0) ∧
    (∀ (log : List AgentEvent) (pk : String),
      durableHead log pk = getLatestSequenceM log (some pk)) ∧
    (∀ (inps : List EventInput) (i : EventInput),
      getLatestSequenceM (appendEventM (appendAllM inps) i).1 none
          = (appendEventM (appendAllM inps) i).2.sequence ∧
      ∀ e ∈ (appendEventM (appendAllM inps) i).1,
        e.sequence ≤ (appendEventM (appendAllM inps) i).2.sequence) ∧
    (∀ (inps : List EventInput) (i : EventInput) (pk : String),
      (∀ j ∈ inps, j.project_key = pk) → i.project_key = pk →
      durableHead (appendEventM (appendAllM inps) i).1 pk
          = (appendEventM (appendAllM inps) i).2.sequence) := by
  have hgen : ∀ (log : List AgentEvent) (i : EventInput),
      getLatestSequenceM (appendEventM log i).1 none
          = (appendEventM log i).2.sequence ∧
      ∀ e ∈ (appendEventM log i).1,
        e.sequence ≤ (appendEventM log i).2.sequence := by
    intro log i
    constructor
    · show getLatestSequenceM (log ++ [_]) none = _
      rw [getLatestSequenceM_append log none _ rfl]
      exact max_eq_right (Nat.le_succ_of_le (le_refl _))
    · intro e he
      rcases List.mem_append.1 he with h | h
      · exact Nat.le_succ_of_le (le_getLatestSequenceM log none e h (by intro k hk; cases hk))
      · rw [List.mem_singleton.1 h]
        exact Nat.le_refl _
  refine ⟨fun pk => by cases pk <;> rfl, fun _ => rfl, fun _ _ => rfl,
    fun inps i => hgen (appendAllM inps) i, ?_⟩
  intro inps i pk hall hik
  show getLatestSequenceM ((appendAllM inps) ++ [_]) (some pk) = _
  rw [getLatestSequenceM_append (appendAllM inps) (some pk) _ (beq_iff_eq.2 hik)]
  apply max_eq_right
  exact Nat.le_succ_of_le (getLatestSequenceM_le_none (appendAllM inps) (some pk))

/-- Witness for C8: one append into an empty store gives latest sequence 1,
head agrees. -/
theorem getLatestSequence_spec_witness :
    getLatestSequenceM
        (appendEventM (appendAllM []) ⟨"agent_registered", "p", "A1", none, 5⟩).1 none
      = (appendEventM (appendAllM []) ⟨"agent_registered", "p", "A1", none, 5⟩).2.sequence ∧
    durableHead (appendEventM (appendAllM []) ⟨"agent_registered", "p", "A1", none, 5⟩).1 "p"
      = (appendEventM (appendAllM []) ⟨"agent_registered", "p", "A1", none, 5⟩).2.sequence := by
  have h := getLatestSequence_spec
  exact ⟨(h.2.2.2.1 [] ⟨"agent_registered", "p", "A1", none, 5⟩).1,
    h.2.2.2.2 [] ⟨"agent_registered", "p", "A1", none, 5⟩ "p" (by intro j hj; cases hj) rfl⟩

/-! ## Subscription polling loop (C4) -/

/-- Events of project `pk` with `sequence > off`, in log order. -/
def eventsAfter (log : List AgentEvent) (pk : String) (off : Nat) : List AgentEvent :=
  log.filter (fun e => e.project_key == pk && decide (off < e.sequence))

/-- One poll of the subscription loop: up to 100 events after `last`
(durable-adapter.ts line 138: `readEvents({projectKey, afterSequence:
lastSequence, limit: 100})`). -/
def pollBatch (log : List AgentEvent) (pk : String) (last : Nat) : List AgentEvent :=
  readEventsM log ⟨some pk, some last, some 100⟩

/-- The subscription polling loop of durable-adapter.ts run to quiescence
over a fixed log: each round reads a batch, delivers it in order, and
advances `lastSequence` to the sequence of the last delivered event; the
loop stops once a poll returns nothing.  `fuel` bounds the number of
polls. -/
def pollLoop (log : List AgentEvent) (pk : String) : Nat → Nat → List AgentEvent
  | 0, _ => []
  | fuel + 1, last =>
    match (pollBatch log pk last).getLast? with
    | none => []
    | some e => pollBatch log pk last ++ pollLoop log pk fuel e.sequence

/-- Everything `subscribe(callback, startOffset)` delivers over a fixed
log: the polling loop started at `startOffset`, given enough fuel to
drain the log. -/
def subscribeDeliver (log : List AgentEvent) (pk : String) (startOffset : Nat) :
    List AgentEvent :=
  pollLoop log pk (log.length + 1) startOffset

theorem pollBatch_eq (log : List AgentEvent) (pk : String) (last : Nat) :
    pollBatch log pk last = (eventsAfter log pk last).take 100 := by
  have hfn : matchesFilter ⟨some pk, some last, some 100⟩
      = fun e => e.project_key == pk && decide (last < e.sequence) := by
    funext e
    rfl
  simp only [pollBatch, readEventsM, hfn, eventsAfter]

theorem eventsAfter_step (log : List AgentEvent) (pk : String) (a b : Nat) (hab : a ≤ b) :
    (eventsAfter log pk a).filter (fun x => decide (b < x.sequence))
      = eventsAfter log pk b := by
  unfold eventsAfter
  rw [List.filter_filter]
  apply List.filter_congr
  intro x _
  by_cases hb : b < x.sequence
  · have ha : a < x.sequence := lt_of_le_of_lt hab hb
    simp [hb, ha]
  · simp [hb]

theorem le_of_getLastQ :
    ∀ (l : List AgentEvent), l.Pairwise (fun x y => x.sequence < y.sequence) →
      ∀ (e : AgentEvent), l.getLast? = some e →
        ∀ x ∈ l, x.sequence ≤ e.sequence := by
  intro l
  induction l with
  | nil => intro _ e he; cases he
  | cons a t ih =>
      intro hp e he x hx
      cases t with
      | nil =>
          have he2 : a = e := by
            simpa using he
          have hx2 : x = a := List.mem_singleton.1 hx
          rw [hx2, ← he2]
      | cons b t2 =>
          have he2 : (b :: t2).getLast? = some e := he
          have hemem : e ∈ b :: t2 := List.mem_of_mem_getLast? he2
          rcases List.mem_cons.1 hx with rfl | hx2
          · exact le_of_lt ((List.pairwise_cons.1 hp).1 e hemem)
          · exact ih (List.pairwise_cons.1 hp).2 e he2 x hx2

theorem sorted_split (M : List AgentEvent)
    (hp : M.Pairwise (fun x y => x.sequence < y.sequence)) (k : Nat) (e : AgentEvent)
    (hl : (M.take k).getLast? = some e) :
    M.filter (fun x => decide (e.sequence < x.sequence)) = M.drop k := by
  have hsplit : M.take k ++ M.drop k = M := List.take_append_drop k M
  have hp2 : (M.take k ++ M.drop k).Pairwise (fun x y => x.sequence < y.sequence) := by
    rw [hsplit]
    exact hp
  obtain ⟨hB, hD, hcross⟩ := List.pairwise_append.1 hp2
  have hemem : e ∈ M.take k := List.mem_of_mem_getLast? hl
  conv =>
    lhs
    rw [← hsplit]
  rw [List.filter_append]
  have h1 : (M.take k).filter (fun x => decide (e.sequence < x.sequence)) = [] := by
    rw [List.filter_eq_nil_iff]
    intro x hx
    simp only [decide_eq_true_eq]
    exact not_lt.2 (le_of_getLastQ (M.take k) hB e hl x hx)
  have h2 : (M.drop k).filter (fun x => decide (e.sequence < x.sequence)) = M.drop k := by
    rw [List.filter_eq_self]
    intro y hy
    simp only [decide_eq_true_eq]
    exact hcross e hemem y hy
  rw [h1, h2, List.nil_append]

theorem pollLoop_eq (log : List AgentEvent) (pk : String) (hsort : SeqSorted log) :
    ∀ (fuel last : Nat), (eventsAfter log pk last).length < fuel →
      pollLoop log pk fuel last = eventsAfter log pk last := by
  intro fuel
  induction fuel with
  | zero => intro last h; cases h
  | succ fuel ih =>
      intro last hlen
      by_cases hF : eventsAfter log pk last = []
      · simp [pollLoop, pollBatch_eq, hF]
      · have hsorted : (eventsAfter log pk last).Pairwise
            (fun x y => x.sequence < y.sequence) := hsort.filter _
        have htake : (eventsAfter log pk last).take 100 ≠ [] := by
          rw [Ne, List.take_eq_nil_iff]
          push_neg
          exact ⟨by norm_num, hF⟩
        obtain ⟨e, he⟩ : ∃ e, ((eventsAfter log pk last).take 100).getLast? = some e := by
          cases hg : ((eventsAfter log pk last).take 100).getLast? with
          | none => exact absurd (List.getLast?_eq_none_iff.1 hg) htake
          | some e => exact ⟨e, rfl⟩
        have hlastle : last ≤ e.sequence := by
          have hetake : e ∈ (eventsAfter log pk last).take 100 :=
            List.mem_of_mem_getLast? he
          have hein : e ∈ eventsAfter log pk last :=
            (List.take_sublist 100 _).mem hetake
          have := (List.mem_filter.1 hein).2
          rw [Bool.and_eq_true] at this
          exact le_of_lt (of_decide_eq_true this.2)
        have hdrop : eventsAfter log pk e.sequence = (eventsAfter log pk last).drop 100 := by
          rw [← eventsAfter_step log pk last e.sequence hlastle]
          exact sorted_split (eventsAfter log pk last) hsorted 100 e he
        have hlen2 : (eventsAfter log pk e.sequence).length < fuel := by
          rw [hdrop, List.length_drop]
          have h1 : 1 ≤ (eventsAfter log pk last).length :=
            List.length_pos.2 hF
          omega
        show (match (pollBatch log pk last).getLast? with
          | none => []
          | some e => pollBatch log pk last ++ pollLoop log pk fuel e.sequence)
          = eventsAfter log pk last
        rw [pollBatch_eq, he]
        show (eventsAfter log pk last).take 100 ++ pollLoop log pk fuel e.sequence
          = eventsAfter log pk last
        rw [ih e.sequence hlen2, hdrop]
        exact List.take_append_drop 100 _

/-- Claim C4: over any sorted event log, a subscriber that restarts from
the offset of the last event it received gets exactly the events with
greater sequence, in ascending order, and the concatenation of what it
received before and after the restart equals a single subscription from
offset 0 — no gap, no duplicate. -/
theorem offset_resumption_spec (log : List AgentEvent) (pk : String)
    (hsort : SeqSorted log) :
    (∀ off : Nat, subscribeDeliver log pk off = eventsAfter log pk off ∧
      (subscribeDeliver log pk off).Pairwise (fun a b => a.sequence < b.sequence)) ∧
    (subscribeDeliver log pk 0).Nodup ∧
    ∀ (k : Nat) (e : AgentEvent),
      ((subscribeDeliver log pk 0).take k).getLast? = some e →
      (subscribeDeliver log pk 0).take k ++ subscribeDeliver log pk e.sequence
        = subscribeDeliver log pk 0 := by
  have hdeliver : ∀ off : Nat, subscribeDeliver log pk off = eventsAfter log pk off := by
    intro off
    apply pollLoop_eq log pk hsort
    exact Nat.lt_succ_of_le (List.length_filter_le _ log)
  have hpair : ∀ off : Nat,
      (subscribeDeliver log pk off).Pairwise (fun a b => a.sequence < b.sequence) := by
    intro off
    rw [hdeliver off]
    exact hsort.filter _
  refine ⟨fun off => ⟨hdeliver off, hpair off⟩, ?_, ?_⟩
  · apply List.Pairwise.imp ?_ (hpair 0)
    intro a b hab heq
    rw [heq] at hab
    exact lt_irrefl _ hab
  · intro k e he
    have hsorted0 : (subscribeDeliver log pk 0).Pairwise
        (fun x y => x.sequence < y.sequence) := hpair 0
    have hsplit := sorted_split (subscribeDeliver log pk 0) hsorted0 k e he
    have hstep : (eventsAfter log pk 0).filter (fun x => decide (e.sequence < x.sequence))
        = eventsAfter log pk e.sequence :=
      eventsAfter_step log pk 0 e.sequence (Nat.zero_le _)
    rw [hdeliver e.sequence, ← hstep, ← hdeliver 0, hsplit]
    exact List.take_append_drop k _

/-- Witness for C4 on a concrete three-event log, resuming after the first
two deliveries. -/
theorem offset_resumption_spec_witness :
    (subscribeDeliver
        [⟨1, 1, "t", "p", "A", none, 1⟩, ⟨2, 2, "t", "p", "A", none, 2⟩,
         ⟨3, 3, "t", "p", "A", none, 3⟩] "p" 0).take 2
      ++ subscribeDeliver
        [⟨1, 1, "t", "p", "A", none, 1⟩, ⟨2, 2, "t", "p", "A", none, 2⟩,
         ⟨3, 3, "t", "p", "A", none, 3⟩] "p" 2
      = subscribeDeliver
        [⟨1, 1, "t", "p", "A", none, 1⟩, ⟨2, 2, "t", "p", "A", none, 2⟩,
         ⟨3, 3, "t", "p", "A", none, 3⟩] "p" 0 := by
  have h := offset_resumption_spec
    [⟨1, 1, "t", "p", "A", none, 1⟩, ⟨2, 2, "t", "p", "A", none, 2⟩,
     ⟨3, 3, "t", "p", "A", none, 3⟩] "p"
    (by unfold SeqSorted; decide)
  exact h.2.2 2 ⟨2, 2, "t", "p", "A", none, 2⟩ (by decide)

/-! ## Unsubscription (C9) -/

/-- Subscriber state of `subscribe` in durable-adapter.ts: the `isActive`
flag, the `initialized` flag, whether `clearInterval` has run, the
`lastSequence` cursor, and the batches fetched by polls whose dispatch
continuation has not yet resumed. -/
structure SubState where
  isActive : Bool
  initialized : Bool
  cleared : Bool
  lastSeq : Nat
  pending : List (List AgentEvent)
deriving DecidableEq

/-- Interleaving points of the subscription: completion of the async head
initialisation, the start of a poll tick (guard check plus the
`readEvents` call), the resumption of a tick after its await (the
dispatch loop), and the unsubscribe function. -/
inductive SubAction where
  | finishInit
  | fetch
  | deliver
  | unsub
deriving DecidableEq

/-- Value of `lastSequence` after a dispatch loop over `evs`: the sequence of the
last delivered event, or the old cursor when the batch was empty. -/
def lastSeqAfter (evs : List AgentEvent) (d : Nat) : Nat :=
  match evs.getLast? with
  | none => d
  | some e => e.sequence

/-- One atomic step of the subscription, transcribed from
durable-adapter.ts lines 118-167: `fetch` no-ops when the interval was
cleared or the guard `!isActive || !initialized` fires, and otherwise
queues the batch `readEvents(afterSequence = lastSeq, limit = 100)`;
`deliver` resumes a queued dispatch loop, which — per the `if
(!isActive) break` guard — emits nothing when `isActive` is false, and
otherwise emits every event of the batch and advances `lastSeq`;
`unsub` sets `isActive := false` and runs `clearInterval`. -/
def subStep (log : List AgentEvent) (pk : String) (st : SubState) :
    SubAction → SubState × List StreamEvent
  | .finishInit =>
      ({ st with lastSeq := getLatestSequenceM log (some pk), initialized := true }, [])
  | .fetch =>
      if st.cleared then (st, [])
      else if !st.isActive || !st.initialized then (st, [])
      else ({ st with pending := st.pending ++ [pollBatch log pk st.lastSeq] }, [])
  | .deliver =>
      match st.pending with
      | [] => (st, [])
      | evs :: rest =>
        if st.isActive then
          ({ st with pending := rest, lastSeq := lastSeqAfter evs st.lastSeq },
           evs.map (fun e => ⟨e.sequence, jsonEncodeEvent e, e.timestamp⟩))
        else ({ st with pending := rest }, [])
  | .unsub => ({ st with isActive := false, cleared := true }, [])

/-- Run a list of interleaved subscription steps, collecting every
`callback` invocation. -/
def subRun (log : List AgentEvent) (pk : String) :
    List SubAction → SubState → SubState × List StreamEvent
  | [], st => (st, [])
  | a :: acts, st =>
      let s1 := subStep log pk st a
      let s2 := subRun log pk acts s1.1
      (s2.1, s1.2 ++ s2.2)

theorem subRun_append (log : List AgentEvent) (pk : String) :
    ∀ (acts1 acts2 : List SubAction) (st : SubState),
      subRun log pk (acts1 ++ acts2) st
        = ((subRun log pk acts2 (subRun log pk acts1 st).1).1,
           (subRun log pk acts1 st).2 ++ (subRun log pk acts2 (subRun log pk acts1 st).1).2) := by
  intro acts1
  induction acts1 with
  | nil => intro acts2 st; simp [subRun]
  | cons a t ih =>
      intro acts2 st
      show subRun log pk (a :: (t ++ acts2)) st = _
      simp only [subRun]
      rw [ih acts2 (subStep log pk st a).1]
      simp [subRun, List.append_assoc]

theorem subRun_inactive (log : List AgentEvent) (pk : String) :
    ∀ (acts : List SubAction) (st : SubState), st.isActive = false →
      (subRun log pk acts st).2 = [] ∧ (subRun log pk acts st).1.isActive = false := by
  intro acts
  induction acts with
  | nil => intro st h; exact ⟨rfl, h⟩
  | cons a t ih =>
      intro st h
      have hstep : (subStep log pk st a).2 = [] ∧ (subStep log pk st a).1.isActive = false := by
        cases a with
        | finishInit => exact ⟨rfl, h⟩
        | fetch =>
            by_cases hc : st.cleared
            · simp [subStep, hc, h]
            · simp [subStep, hc, h]
        | deliver =>
            cases hp : st.pending with
            | nil => simp [subStep, hp, h]
            | cons evs rest => simp [subStep, hp, h]
        | unsub => simp [subStep]
      have ht := ih (subStep log pk st a).1 hstep.2
      refine ⟨?_, ?_⟩
      · show (subStep log pk st a).2 ++ (subRun log pk t (subStep log pk st a).1).2 = []
        rw [hstep.1, ht.1]
        rfl
      · exact ht.2

/-- Claim C9: once the unsubscribe function returned by `subscribe` has
run, the polling interval is cleared and the subscriber's callback is
never invoked again — including for events already fetched by a poll
that was in flight when unsubscribe was called: whatever steps follow
the unsubscribe contribute no further callback invocations. -/
theorem unsubscribe_silences_callback (log : List AgentEvent) (pk : String)
    (acts1 acts2 : List SubAction) (st0 : SubState) :
    (subRun log pk (acts1 ++ SubAction.unsub :: acts2) st0).2
      = (subRun log pk (acts1 ++ [SubAction.unsub]) st0).2 ∧
    (subRun log pk (acts1 ++ [SubAction.unsub]) st0).1.cleared = true ∧
    (subRun log pk (acts1 ++ [SubAction.unsub]) st0).1.isActive = false := by
  have h1 := subRun_append log pk acts1 (SubAction.unsub :: acts2) st0
  have h2 := subRun_append log pk acts1 [SubAction.unsub] st0
  set st1 := (subRun log pk acts1 st0).1 with hst1
  have hafter : subRun log pk (SubAction.unsub :: acts2) st1
      = ((subRun log pk acts2 (subStep log pk st1 SubAction.unsub).1).1,
         [] ++ (subRun log pk acts2 (subStep log pk st1 SubAction.unsub).1).2) := rfl
  have hinact : (subStep log pk st1 SubAction.unsub).1.isActive = false := rfl
  have hrest := subRun_inactive log pk acts2 (subStep log pk st1 SubAction.unsub).1 hinact
  constructor
  · rw [h1, h2]
    simp only [hafter, hrest.1]
    rfl
  · constructor
    · rw [h2]
      rfl
    · rw [h2]
      rfl

/-! ## Projections and replay (C7) -/

/-- One row of the `agents` projection table (spec §3). -/
structure AgentRow where
  project_key : String
  name : String
  task_description : Option String
  registered_at : Nat
  last_active_at : Nat
deriving DecidableEq

/-- Modelled from the spec (§4.4; the projection registry's implementation
is not among the sources): the deterministic `apply(event)` function for
the agents projection.  `agent_registered` upserts the agent row; any
other event bearing an agent name refreshes that agent's
`last_active_at`. -/
def applyEventProj (agents : List AgentRow) (e : AgentEvent) : List AgentRow :=
  if e.type == "agent_registered" then
    if agents.any (fun a => a.project_key == e.project_key && a.name == e.agent_name) then
      agents.map (fun a =>
        if a.project_key == e.project_key && a.name == e.agent_name then
          { a with task_description := e.task_description, last_active_at := e.timestamp }
        else a)
    else
      agents ++ [⟨e.project_key, e.agent_name, e.task_description, e.timestamp, e.timestamp⟩]
  else
    agents.map (fun a =>
      if a.project_key == e.project_key && a.name == e.agent_name then
        { a with last_active_at := e.timestamp }
      else a)

/-- Full store state: the event log plus the agents projection. -/
structure StoreState where
  log : List AgentEvent
  agents : List AgentRow
deriving DecidableEq

/-- Operation `appendEvent` with its in-transaction projection update (spec §4.3):
insert the event and apply the projection in one step. -/
def appendEventFull (st : StoreState) (inp : EventInput) : StoreState :=
  ⟨(appendEventM st.log inp).1, applyEventProj st.agents (appendEventM st.log inp).2⟩

/-- State after a run of `appendEvent` calls from an empty database. -/
def appendAllFull (inps : List EventInput) : StoreState :=
  inps.foldl appendEventFull ⟨[], []⟩

/-- Modelled from the spec: `replayEvents({clearViews: true})`
(implementation not among the sources) truncates the projection tables
and re-applies every stored event in ascending sequence order through
the projection registry. -/
def replayM (st : StoreState) : StoreState :=
  ⟨st.log, st.log.foldl applyEventProj []⟩

theorem appendAll_agents_foldl :
    ∀ (inps : List EventInput) (st : StoreState),
      st.agents = st.log.foldl applyEventProj [] →
      (inps.foldl appendEventFull st).agents
        = (inps.foldl appendEventFull st).log.foldl applyEventProj [] := by
  intro inps
  induction inps with
  | nil => intro st h; exact h
  | cons i t ih =>
      intro st h
      apply ih
      show applyEventProj st.agents (appendEventM st.log i).2
        = ((appendEventM st.log i).1).foldl applyEventProj []
      rw [h]
      show applyEventProj (st.log.foldl applyEventProj []) (appendEventM st.log i).2
        = (st.log ++ [(appendEventM st.log i).2]).foldl applyEventProj []
      rw [List.foldl_append]
      rfl

/-- Claim C7: replay is deterministic and restores projections.  For the
log produced by any run of appends, replaying with cleared views from
any two (possibly corrupted) projection states yields identical store
states, and that state's projection is exactly the one the original
appends produced. -/
theorem replay_restores_projection (inps : List EventInput)
    (corrupt1 corrupt2 : List AgentRow) :
    replayM ⟨(appendAllFull inps).log, corrupt1⟩
      = replayM ⟨(appendAllFull inps).log, corrupt2⟩ ∧
    (replayM ⟨(appendAllFull inps).log, corrupt1⟩).agents = (appendAllFull inps).agents := by
  constructor
  · rfl
  · show (appendAllFull inps).log.foldl applyEventProj [] = (appendAllFull inps).agents
    exact (appendAll_agents_foldl inps ⟨[], []⟩ rfl).symm

/-! ## File reservations (C5)

`reserveFiles` lives in `streams/store.ts`, which is not among the
sources (only its tests are); the arbiter is modelled from spec §4.4 and
§4.6. -/

/-- One row of the `reservations` projection (spec §3). -/
structure Reservation where
  project_key : String
  agent_name : String
  path_pattern : String
  exclusive : Bool
  acquired_at : Nat
  expires_at : Option Nat
  released_at : Option Nat
deriving DecidableEq

/-- Active iff `released_at IS NULL AND (expires_at IS NULL OR
expires_at > now)` (spec §3). -/
def isActiveRes (now : Nat) (r : Reservation) : Bool :=
  r.released_at == none &&
  (match r.expires_at with
   | none => true
   | some t => decide (now < t))

/-- An equivalent active reservation: same project, agent, path pattern
and exclusivity (spec §4.4, `file_reserved` idempotency). -/
def matchesOwn (pk ag p : String) (ex : Bool) (now : Nat) (r : Reservation) : Bool :=
  isActiveRes now r && r.project_key == pk && r.agent_name == ag &&
    r.path_pattern == p && r.exclusive == ex

/-- The row `reserveFiles` inserts for path `p`:
`expires_at = now + ttl` when a TTL is given. -/
def newReservation (pk ag p : String) (ex : Bool) (ttl : Option Nat) (now : Nat) :
    Reservation :=
  ⟨pk, ag, p, ex, now, ttl.map (fun t => now + t), none⟩

/-- Modelled from the spec: the insertion part of `reserveFiles` — for
each requested path, insert a reservation row unless an equivalent
active reservation already exists (idempotent retry). -/
def insertReservations (pk ag : String) (ex : Bool) (ttl : Option Nat) (now : Nat) :
    List String → List Reservation → List Reservation
  | [], tbl => tbl
  | p :: ps, tbl =>
    if tbl.any (matchesOwn pk ag p ex now) then
      insertReservations pk ag ex ttl now ps tbl
    else
      insertReservations pk ag ex ttl now ps (tbl ++ [newReservation pk ag p ex ttl now])

/-- Conflict test of spec §4.6: some overlapping active reservation is
owned by a different agent and either it or the request is exclusive. -/
def hasConflict (overlaps : String → String → Bool) (tbl : List Reservation)
    (pk ag : String) (paths : List String) (ex : Bool) (now : Nat) : Bool :=
  tbl.any (fun r => isActiveRes now r && r.project_key == pk &&
    !(r.agent_name == ag) && paths.any (fun p => overlaps r.path_pattern p) &&
    (r.exclusive || ex))

/-- Modelled from the spec: `reserveFiles` — conflict check against
active reservations, then idempotent insertion of one reservation per
requested path. -/
def reserveFilesM (overlaps : String → String → Bool) (tbl : List Reservation)
    (pk ag : String) (paths : List String) (ex : Bool) (ttl : Option Nat) (now : Nat) :
    Except String (List Reservation) :=
  if hasConflict overlaps tbl pk ag paths ex now then
    Except.error "ReservationConflict"
  else
    Except.ok (insertReservations pk ag ex ttl now paths tbl)

/-- Number of active reservations for `(pk, ag, p)` at time `now`. -/
def countActiveFor (tbl : List Reservation) (now : Nat) (pk ag p : String) : Nat :=
  (tbl.filter (fun r => isActiveRes now r && r.project_key == pk &&
    r.agent_name == ag && r.path_pattern == p)).length

theorem isActiveRes_mono (r : Reservation) (now now2 : Nat) (h : now ≤ now2)
    (ha : isActiveRes now2 r = true) : isActiveRes now r = true := by
  unfold isActiveRes at ha ⊢
  rw [Bool.and_eq_true] at ha ⊢
  refine ⟨ha.1, ?_⟩
  have h2 := ha.2
  cases hexp : r.expires_at with
  | none => simp [hexp]
  | some t =>
      rw [hexp] at h2
      simp only [decide_eq_true_eq] at h2
      simp only [decide_eq_true_eq]
      omega

theorem countActiveFor_append (tbl : List Reservation) (x : Reservation)
    (now2 : Nat) (pk ag p : String) :
    countActiveFor (tbl ++ [x]) now2 pk ag p
      = countActiveFor tbl now2 pk ag p
        + (if (isActiveRes now2 x && x.project_key == pk &&
            x.agent_name == ag && x.path_pattern == p) = true then 1 else 0) := by
  unfold countActiveFor
  rw [List.filter_append, List.length_append]
  congr 1
  by_cases hx : (isActiveRes now2 x && x.project_key == pk &&
      x.agent_name == ag && x.path_pattern == p) = true
  · simp [List.filter_cons, hx]
  · simp [List.filter_cons, hx]

theorem matchesOwn_newReservation_ne (pk ag p q : String) (ex : Bool)
    (ttl : Option Nat) (now t2 : Nat) (hne : q ≠ p) :
    matchesOwn pk ag p ex t2 (newReservation pk ag q ex ttl now) = false := by
  unfold matchesOwn newReservation
  have : ((⟨pk, ag, q, ex, now, ttl.map (fun t => now + t), none⟩ :
      Reservation).path_pattern == p) = false := by
    simp [hne]
  simp only [this]
  simp

theorem insertRes_extends (pk ag : String) (ex : Bool) (ttl : Option Nat) (now : Nat) :
    ∀ (ps : List String) (tbl : List Reservation),
      ∃ extra : List Reservation,
        insertReservations pk ag ex ttl now ps tbl = tbl ++ extra ∧
        ∀ r ∈ extra, r.agent_name = ag := by
  intro ps
  induction ps with
  | nil => intro tbl; exact ⟨[], by simp [insertReservations], by intro r hr; cases hr⟩
  | cons q ps ih =>
      intro tbl
      by_cases hq : tbl.any (matchesOwn pk ag q ex now) = true
      · obtain ⟨extra, he, hag⟩ := ih tbl
        exact ⟨extra, by simp [insertReservations, hq, he], hag⟩
      · obtain ⟨extra, he, hag⟩ := ih (tbl ++ [newReservation pk ag q ex ttl now])
        refine ⟨newReservation pk ag q ex ttl now :: extra, ?_, ?_⟩
        · rw [insertReservations, if_neg hq, he, List.append_assoc]
          rfl
        · intro r hr
          rcases List.mem_cons.1 hr with rfl | hr2
          · rfl
          · exact hag r hr2

theorem insertRes_mem (pk ag : String) (ex : Bool) (ttl : Option Nat) (now : Nat) :
    ∀ (ps : List String) (tbl : List Reservation) (p : String), p ∈ ps →
      tbl.any (matchesOwn pk ag p ex now) = false →
      newReservation pk ag p ex ttl now ∈ insertReservations pk ag ex ttl now ps tbl := by
  intro ps
  induction ps with
  | nil => intro tbl p hp; cases hp
  | cons q ps ih =>
      intro tbl p hp hany
      by_cases hq : tbl.any (matchesOwn pk ag q ex now) = true
      · rcases List.mem_cons.1 hp with rfl | hp2
        · rw [hany] at hq
          cases hq
        · rw [insertReservations, if_pos hq]
          exact ih tbl p hp2 hany
      · rw [insertReservations, if_neg hq]
        by_cases hpq : q = p
        · subst hpq
          obtain ⟨extra, he, _⟩ :=
            insertRes_extends pk ag ex ttl now ps (tbl ++ [newReservation pk ag q ex ttl now])
          rw [he]
          exact List.mem_append_left _ (List.mem_append_right _ (List.mem_singleton.2 rfl))
        · have hp2 : p ∈ ps := by
            rcases List.mem_cons.1 hp with h | h
            · exact absurd h.symm hpq
            · exact h
          apply ih (tbl ++ [newReservation pk ag q ex ttl now]) p hp2
          rw [List.any_append, hany]
          have hm : (matchesOwn pk ag p ex now) (newReservation pk ag q ex ttl now) = false :=
            matchesOwn_newReservation_ne pk ag p q ex ttl now now hpq
          simp [hm]

theorem insertRes_count_frozen (pk ag : String) (ex : Bool) (ttl : Option Nat)
    (now now2 : Nat) :
    ∀ (ps : List String) (tbl : List Reservation) (p : String),
      tbl.any (matchesOwn pk ag p ex now) = true →
      countActiveFor (insertReservations pk ag ex ttl now ps tbl) now2 pk ag p
        = countActiveFor tbl now2 pk ag p := by
  intro ps
  induction ps with
  | nil => intro tbl p _; rfl
  | cons q ps ih =>
      intro tbl p hp
      by_cases hq : tbl.any (matchesOwn pk ag q ex now) = true
      · rw [insertReservations, if_pos hq]
        exact ih tbl p hp
      · rw [insertReservations, if_neg hq]
        have hpq : q ≠ p := by
          intro h
          rw [h, hp] at hq
          exact hq rfl
        have hne : ((newReservation pk ag q ex ttl now).path_pattern == p) = false := by
          simp [newReservation, hpq]
        have h1 : countActiveFor (tbl ++ [newReservation pk ag q ex ttl now]) now2 pk ag p
            = countActiveFor tbl now2 pk ag p := by
          rw [countActiveFor_append]
          simp [hne]
        have h2 : (tbl ++ [newReservation pk ag q ex ttl now]).any
            (matchesOwn pk ag p ex now) = true := by
          rw [List.any_append, hp]
          rfl
        exact (ih _ p h2).trans h1

theorem insertRes_count_one (pk ag : String) (ex : Bool) (ttl : Option Nat)
    (now now2 : Nat)
    (hnan : ∀ q : String, isActiveRes now (newReservation pk ag q ex ttl now) = true)
    (hna2 : ∀ q : String, isActiveRes now2 (newReservation pk ag q ex ttl now) = true) :
    ∀ (ps : List String) (tbl : List Reservation),
      (∀ p ∈ ps,
        (tbl.any (matchesOwn pk ag p ex now) = true →
          countActiveFor tbl now2 pk ag p = 1) ∧
        (tbl.any (matchesOwn pk ag p ex now) = false →
          countActiveFor tbl now2 pk ag p = 0)) →
      ∀ p ∈ ps, countActiveFor (insertReservations pk ag ex ttl now ps tbl) now2 pk ag p = 1 := by
  intro ps
  induction ps with
  | nil => intro tbl _ p hp; cases hp
  | cons q ps ih =>
      intro tbl hall p hp
      by_cases hq : tbl.any (matchesOwn pk ag q ex now) = true
      · rw [insertReservations, if_pos hq]
        rcases List.mem_cons.1 hp with rfl | hp2
        · rw [insertRes_count_frozen pk ag ex ttl now now2 ps tbl p hq]
          exact (hall p (List.mem_cons_self p ps)).1 hq
        · exact ih tbl (fun r hr => hall r (List.mem_cons_of_mem q hr)) p hp2
      · rw [insertReservations, if_neg hq]
        have hqf : tbl.any (matchesOwn pk ag q ex now) = false := by
          cases hh : tbl.any (matchesOwn pk ag q ex now) with
          | false => rfl
          | true => exact absurd hh hq
        have hcount0 : countActiveFor tbl now2 pk ag q = 0 :=
          (hall q (List.mem_cons_self q ps)).2 hqf
        have hmatchx : (isActiveRes now2 (newReservation pk ag q ex ttl now) &&
            (newReservation pk ag q ex ttl now).project_key == pk &&
            (newReservation pk ag q ex ttl now).agent_name == ag &&
            (newReservation pk ag q ex ttl now).path_pattern == q) = true := by
          rw [hna2 q]
          simp [newReservation]
        have hcnt1 : countActiveFor (tbl ++ [newReservation pk ag q ex ttl now]) now2 pk ag q
            = 1 := by
          rw [countActiveFor_append, hcount0, if_pos hmatchx]
        have hmownx : matchesOwn pk ag q ex now (newReservation pk ag q ex ttl now) = true := by
          unfold matchesOwn
          rw [hnan q]
          simp [newReservation]
        have hanyq : (tbl ++ [newReservation pk ag q ex ttl now]).any
            (matchesOwn pk ag q ex now) = true := by
          rw [List.any_append]
          simp [hmownx]
        have hall2 : ∀ r ∈ ps,
            ((tbl ++ [newReservation pk ag q ex ttl now]).any (matchesOwn pk ag r ex now) = true →
              countActiveFor (tbl ++ [newReservation pk ag q ex ttl now]) now2 pk ag r = 1) ∧
            ((tbl ++ [newReservation pk ag q ex ttl now]).any (matchesOwn pk ag r ex now) = false →
              countActiveFor (tbl ++ [newReservation pk ag q ex ttl now]) now2 pk ag r = 0) := by
          intro r hr
          by_cases hrq : q = r
          · subst hrq
            refine ⟨fun _ => hcnt1, fun hfalse => ?_⟩
            rw [hanyq] at hfalse
            cases hfalse
          · have hpathne : ((newReservation pk ag q ex ttl now).path_pattern == r) = false := by
              simp [newReservation, hrq]
            have hco : countActiveFor (tbl ++ [newReservation pk ag q ex ttl now]) now2 pk ag r
                = countActiveFor tbl now2 pk ag r := by
              rw [countActiveFor_append]
              simp [hpathne]
            have hmo : matchesOwn pk ag r ex now (newReservation pk ag q ex ttl now) = false :=
              matchesOwn_newReservation_ne pk ag r q ex ttl now now hrq
            have hao : (tbl ++ [newReservation pk ag q ex ttl now]).any
                (matchesOwn pk ag r ex now) = tbl.any (matchesOwn pk ag r ex now) := by
              rw [List.any_append]
              simp [hmo]
            rw [hco, hao]
            exact hall r (List.mem_cons_of_mem q hr)
        rcases List.mem_cons.1 hp with rfl | hp2
        · rw [insertRes_count_frozen pk ag ex ttl now now2 ps
            (tbl ++ [newReservation pk ag p ex ttl now]) p hanyq]
          exact hcnt1
        · exact ih (tbl ++ [newReservation pk ag q ex ttl now]) hall2 p hp2

theorem insertRes_noop (pk ag : String) (ex : Bool) (ttl : Option Nat) (now2 : Nat) :
    ∀ (ps : List String) (tbl : List Reservation),
      (∀ p ∈ ps, tbl.any (matchesOwn pk ag p ex now2) = true) →
      insertReservations pk ag ex ttl now2 ps tbl = tbl := by
  intro ps
  induction ps with
  | nil => intro tbl _; rfl
  | cons q ps ih =>
      intro tbl hall
      rw [insertReservations, if_pos (hall q (List.mem_cons_self q ps))]
      exact ih tbl (fun r hr => hall r (List.mem_cons_of_mem q hr))

/-- Claim C5: retrying `reserveFiles` with identical `(agent, paths,
exclusive)` while the reservations the first call created are still
active is a no-op success — the table is unchanged and the call
succeeds — and exactly one active reservation exists per requested
`(project, agent, path_pattern)` afterwards. -/
theorem reserveFiles_idempotent_retry
    (overlaps : String → String → Bool) (tbl : List Reservation)
    (pk ag : String) (paths : List String) (ex : Bool) (ttl : Option Nat)
    (now now2 : Nat) (T1 : List Reservation)
    (h1 : reserveFilesM overlaps tbl pk ag paths ex ttl now = Except.ok T1)
    (h2 : ∀ p ∈ paths, ∀ r ∈ tbl, isActiveRes now r = true →
      r.project_key = pk → r.agent_name = ag → r.path_pattern ≠ p)
    (h3 : now ≤ now2)
    (h4 : ∀ t : Nat, ttl = some t → now2 < now + t) :
    reserveFilesM overlaps T1 pk ag paths ex ttl now2 = Except.ok T1 ∧
    ∀ p ∈ paths, countActiveFor T1 now2 pk ag p = 1 := by
  have hnc : hasConflict overlaps tbl pk ag paths ex now = false := by
    cases hcc : hasConflict overlaps tbl pk ag paths ex now with
    | false => rfl
    | true =>
        rw [reserveFilesM, if_pos hcc] at h1
        cases h1
  have hT1 : T1 = insertReservations pk ag ex ttl now paths tbl := by
    rw [reserveFilesM, if_neg (by rw [hnc]; exact Bool.false_ne_true)] at h1
    injection h1 with h
    exact h.symm
  have hna2 : ∀ q : String, isActiveRes now2 (newReservation pk ag q ex ttl now) = true := by
    intro q
    unfold isActiveRes newReservation
    cases ttl with
    | none => rfl
    | some t =>
        have ht := h4 t rfl
        simp [ht]
  have hnan : ∀ q : String, isActiveRes now (newReservation pk ag q ex ttl now) = true :=
    fun q => isActiveRes_mono _ now now2 h3 (hna2 q)
  have hanyf : ∀ p ∈ paths, tbl.any (matchesOwn pk ag p ex now) = false := by
    intro p hp
    cases hh : tbl.any (matchesOwn pk ag p ex now) with
    | false => rfl
    | true =>
        obtain ⟨r, hr, hmr⟩ := List.any_eq_true.1 hh
        simp only [matchesOwn, Bool.and_eq_true] at hmr
        obtain ⟨⟨⟨⟨hact, hproj⟩, hagn⟩, hpath⟩, _⟩ := hmr
        exact absurd (beq_iff_eq.1 hpath)
          (h2 p hp r hr hact (beq_iff_eq.1 hproj) (beq_iff_eq.1 hagn))
  have hall : ∀ p ∈ paths,
      (tbl.any (matchesOwn pk ag p ex now) = true → countActiveFor tbl now2 pk ag p = 1) ∧
      (tbl.any (matchesOwn pk ag p ex now) = false → countActiveFor tbl now2 pk ag p = 0) := by
    intro p hp
    have hcnt0 : countActiveFor tbl now2 pk ag p = 0 := by
      unfold countActiveFor
      rw [List.length_eq_zero, List.filter_eq_nil_iff]
      intro r hr hc
      simp only [Bool.and_eq_true] at hc
      obtain ⟨⟨⟨hact2, hproj⟩, hagn⟩, hpath⟩ := hc
      have hact : isActiveRes now r = true := isActiveRes_mono r now now2 h3 hact2
      exact (h2 p hp r hr hact (beq_iff_eq.1 hproj) (beq_iff_eq.1 hagn)) (beq_iff_eq.1 hpath)
    refine ⟨fun h => ?_, fun _ => hcnt0⟩
    rw [hanyf p hp] at h
    cases h
  have hcounts : ∀ p ∈ paths, countActiveFor T1 now2 pk ag p = 1 := by
    rw [hT1]
    exact insertRes_count_one pk ag ex ttl now now2 hnan hna2 paths tbl hall
  have hmem : ∀ p ∈ paths, newReservation pk ag p ex ttl now ∈ T1 := by
    intro p hp
    rw [hT1]
    exact insertRes_mem pk ag ex ttl now paths tbl p hp (hanyf p hp)
  have hany2 : ∀ p ∈ paths, T1.any (matchesOwn pk ag p ex now2) = true := by
    intro p hp
    apply List.any_eq_true.2
    refine ⟨newReservation pk ag p ex ttl now, hmem p hp, ?_⟩
    unfold matchesOwn
    rw [hna2 p]
    simp [newReservation]
  have hnoop : insertReservations pk ag ex ttl now2 paths T1 = T1 :=
    insertRes_noop pk ag ex ttl now2 paths T1 (hany2)
  have hnc2 : hasConflict overlaps T1 pk ag paths ex now2 = false := by
    obtain ⟨extra, he, hag⟩ := insertRes_extends pk ag ex ttl now paths tbl
    rw [hT1, he]
    unfold hasConflict
    rw [List.any_append]
    have htblf : tbl.any (fun r => isActiveRes now2 r && r.project_key == pk &&
        !(r.agent_name == ag) && paths.any (fun p => overlaps r.path_pattern p) &&
        (r.exclusive || ex)) = false := by
      cases hh : tbl.any (fun r => isActiveRes now2 r && r.project_key == pk &&
          !(r.agent_name == ag) && paths.any (fun p => overlaps r.path_pattern p) &&
          (r.exclusive || ex)) with
      | false => rfl
      | true =>
          obtain ⟨r, hr, hmr⟩ := List.any_eq_true.1 hh
          have hcfl : hasConflict overlaps tbl pk ag paths ex now = true := by
            apply List.any_eq_true.2
            refine ⟨r, hr, ?_⟩
            simp only [Bool.and_eq_true] at hmr ⊢
            obtain ⟨⟨⟨⟨hact2, hproj⟩, hagn⟩, hov⟩, hexq⟩ := hmr
            exact ⟨⟨⟨⟨isActiveRes_mono r now now2 h3 hact2, hproj⟩, hagn⟩, hov⟩, hexq⟩
          rw [hnc] at hcfl
          cases hcfl
    have hextraf : extra.any (fun r => isActiveRes now2 r && r.project_key == pk &&
        !(r.agent_name == ag) && paths.any (fun p => overlaps r.path_pattern p) &&
        (r.exclusive || ex)) = false := by
      cases hh : extra.any (fun r => isActiveRes now2 r && r.project_key == pk &&
          !(r.agent_name == ag) && paths.any (fun p => overlaps r.path_pattern p) &&
          (r.exclusive || ex)) with
      | false => rfl
      | true =>
          obtain ⟨r, hr, hmr⟩ := List.any_eq_true.1 hh
          simp only [Bool.and_eq_true] at hmr
          obtain ⟨⟨⟨⟨_, _⟩, hagn⟩, _⟩, _⟩ := hmr
          rw [Bool.not_eq_true'] at hagn
          rw [beq_iff_eq.2 (hag r hr)] at hagn
          cases hagn
    rw [htblf, hextraf]
    rfl
  constructor
  · rw [reserveFilesM, if_neg (by rw [hnc2]; exact Bool.false_ne_true), hnoop]
  · exact hcounts

/-- Witness for C5: a two-path exclusive reservation retried ten time
units later (well before its TTL) is a no-op success with exactly one
active reservation per path. -/
theorem reserveFiles_idempotent_retry_witness :
    reserveFilesM (fun a b => a == b)
        [⟨"p", "W", "src/a.ts", true, 0, some 3600, none⟩,
         ⟨"p", "W", "src/b.ts", true, 0, some 3600, none⟩]
        "p" "W" ["src/a.ts", "src/b.ts"] true (some 3600) 10
      = Except.ok
        [⟨"p", "W", "src/a.ts", true, 0, some 3600, none⟩,
         ⟨"p", "W", "src/b.ts", true, 0, some 3600, none⟩] ∧
    countActiveFor
        [⟨"p", "W", "src/a.ts", true, 0, some 3600, none⟩,
         ⟨"p", "W", "src/b.ts", true, 0, some 3600, none⟩] 10 "p" "W" "src/a.ts" = 1 := by
  have h := reserveFiles_idempotent_retry (fun a b => a == b) [] "p" "W"
    ["src/a.ts", "src/b.ts"] true (some 3600) 0 10
    [⟨"p", "W", "src/a.ts", true, 0, some 3600, none⟩,
     ⟨"p", "W", "src/b.ts", true, 0, some 3600, none⟩]
    (by rfl)
    (by intro p hp r hr; cases hr)
    (by decide)
    (by intro t ht; injection ht with h2; omega)
  exact ⟨h.1, h.2 "src/a.ts" (List.mem_cons_self _ _)⟩

/-! ## Cell graph: epic closure eligibility (C6)

`isEpicClosureEligible` is in the sources (beads adapter); the
`queryBeads` projection query it calls is not, and is modelled from the
spec. -/

/-- One row of the `beads` (cells) projection — the fields
`isEpicClosureEligible` touches. -/
structure Bead where
  id : String
  project_key : String
  status : String
  parent_id : Option String
  deleted_at : Option Nat
deriving DecidableEq

/-- Modelled from the spec: `queryBeads(db, projectKey, {parent_id})`
(projections.ts is not among the sources) returns the project's cells
with the given parent, excluding soft-deleted rows because
`include_deleted` is not passed (spec §4.4: queries MUST exclude deleted
cells unless `include_deleted`). -/
def queryBeadsByParent (tbl : List Bead) (pk epicId : String) : List Bead :=
  tbl.filter (fun b => b.project_key == pk && b.parent_id == some epicId &&
    b.deleted_at == none)

/-- Method `createBeadsAdapter(...).isEpicClosureEligible` from the beads
adapter: every child returned by `queryBeads({parent_id: epicId})` has
status `closed`. -/
def isEpicClosureEligible (tbl : List Bead) (pk epicId : String) : Bool :=
  (queryBeadsByParent tbl pk epicId).all (fun child => child.status == "closed")

/-- Counterexample to claim C6 as stated: an epic with a single child in
status `tombstone` (not soft-deleted) satisfies the claim's condition
"every child is closed or tombstone", yet `isEpicClosureEligible`
returns `false` — the code tests `status === "closed"` only, so a
tombstone child DOES make the epic ineligible. -/
theorem isEpicClosureEligible_tombstone_counterexample :
    ((⟨"c1", "p", "tombstone", some "e1", none⟩ : Bead).status = "closed" ∨
      (⟨"c1", "p", "tombstone", some "e1", none⟩ : Bead).status = "tombstone") ∧
    (⟨"c1", "p", "tombstone", some "e1", none⟩ : Bead).parent_id = some "e1" ∧
    isEpicClosureEligible [⟨"c1", "p", "tombstone", some "e1", none⟩] "p" "e1" = false := by
  exact ⟨Or.inr rfl, rfl, by decide⟩

/-- Claim C6 (amended): `isEpicClosureEligible(project, epic)` returns
true iff every non-soft-deleted cell of the project whose `parent_id` is
the epic has status `closed`; a child in status `tombstone` that is not
soft-deleted makes the epic ineligible, while soft-deleted children are
ignored. -/
theorem isEpicClosureEligible_closed_only (tbl : List Bead) (pk epicId : String) :
    isEpicClosureEligible tbl pk epicId = true ↔
      ∀ b ∈ tbl, b.project_key = pk → b.parent_id = some epicId → b.deleted_at = none →
        b.status = "closed" := by
  unfold isEpicClosureEligible queryBeadsByParent
  rw [List.all_eq_true]
  constructor
  · intro h b hb hpk hpar hdel
    have hmem : b ∈ tbl.filter (fun b => b.project_key == pk &&
        b.parent_id == some epicId && b.deleted_at == none) := by
      refine List.mem_filter.2 ⟨hb, ?_⟩
      rw [Bool.and_eq_true, Bool.and_eq_true]
      exact ⟨⟨beq_iff_eq.2 hpk, beq_iff_eq.2 hpar⟩, beq_iff_eq.2 hdel⟩
    exact beq_iff_eq.1 (h b hmem)
  · intro h b hb
    obtain ⟨hmem, hpred⟩ := List.mem_filter.1 hb
    rw [Bool.and_eq_true, Bool.and_eq_true] at hpred
    exact beq_iff_eq.2
      (h b hmem (beq_iff_eq.1 hpred.1.1) (beq_iff_eq.1 hpred.1.2) (beq_iff_eq.1 hpred.2))

/-- Witness for the amended C6: one closed child, one soft-deleted open
child — the epic is eligible, and conversely the closed status of every
live child follows from eligibility. -/
theorem isEpicClosureEligible_closed_only_witness :
    isEpicClosureEligible
        [⟨"c1", "p", "closed", some "e1", none⟩,
         ⟨"c2", "p", "open", some "e1", some 5⟩] "p" "e1" = true :=
  (isEpicClosureEligible_closed_only
    [⟨"c1", "p", "closed", some "e1", none⟩,
     ⟨"c2", "p", "open", some "e1", some 5⟩] "p" "e1").2
    (by
      intro b hb hpk hpar hdel
      rcases List.mem_cons.1 hb with rfl | hb2
      · rfl
      · rw [List.mem_singleton.1 hb2] at hdel
        cases hdel)

/-! ## Semantic memory vector search (C2) -/

/-- One row of the `memories` table (libSQL layout: metadata stored as
JSON text, nullable embedding). -/
structure MemRow where
  id : String
  content : String
  metadata : String
  collection : String
  created_at : Nat
  confidence : ℚ
  embedding : Option (List ℚ)
deriving DecidableEq

/-- Record `Memory` as produced by `parseMemoryRow`. -/
structure MemoryM where
  id : String
  content : String
  metadata : String
  collection : String
  created_at : Nat
  confidence : ℚ
deriving DecidableEq

/-- The `matchType` tag of a search result. -/
inductive MatchType where
  | vector
  | fts
deriving DecidableEq

/-- A search result: `{memory, score, matchType}`. -/
structure SearchResultM where
  memory : MemoryM
  score : ℚ
  matchType : MatchType
deriving DecidableEq

/-- Options record `SearchOptions`: `{limit?, threshold?, collection?}`. -/
structure SearchOptionsM where
  limit : Option Nat
  threshold : Option ℚ
  collection : Option String

/-- Helper `parseMemoryRow` of the memory store, restricted to the fields the
model carries. -/
def parseMemoryRow (r : MemRow) : MemoryM :=
  ⟨r.id, r.content, r.metadata, r.collection, r.created_at, r.confidence⟩

/-- Comparison used by `ORDER BY vector_distance_cos(...) ASC`: ascending
stored distance on (row, distance) pairs. -/
def distLE (a b : MemRow × ℚ) : Prop := a.2 ≤ b.2

instance : DecidableRel distLE :=
  fun a b => inferInstanceAs (Decidable (a.2 ≤ b.2))

instance : IsTotal (MemRow × ℚ) distLE :=
  ⟨fun a b => le_total a.2 b.2⟩

instance : IsTrans (MemRow × ℚ) distLE :=
  ⟨fun _ _ _ h1 h2 => le_trans h1 h2⟩

/-- Method `createMemoryStore(db).search(queryEmbedding, options)` — the libSQL
branch, transcribed from the SQL it issues: keep rows whose embedding is
not null, apply the optional collection filter, keep rows with
`1 - dist >= threshold` (threshold defaulting to 0.3), order by distance
ascending, truncate to `limit` (defaulting to 10), and return rows as
`{memory: parseMemoryRow(row), score: 1 - dist, matchType: "vector"}`.
The engine's `vector_distance_cos` is the parameter `dist`. -/
def vectorSearch (dist : List ℚ → List ℚ → ℚ) (table : List MemRow)
    (q : List ℚ) (opts : SearchOptionsM) : List SearchResultM :=
  let lim := opts.limit.getD 10
  let thr := opts.threshold.getD (3 / 10)
  let candidates := table.filterMap (fun r =>
    match r.embedding with
    | none => none
    | some emb =>
      if (match opts.collection with
          | none => true
          | some c => r.collection == c)
          && decide (thr ≤ 1 - dist emb q)
      then some (r, dist emb q) else none)
  ((candidates.insertionSort distLE).take lim).map
    (fun rc => ⟨parseMemoryRow rc.1, 1 - rc.2, MatchType.vector⟩)

/-- Claim C2: every result of the memory store's vector search has
`score = 1 - dist(query, stored embedding)` with `matchType = "vector"`,
every score is at least the threshold (default 0.3), results respect the
collection filter when one is given, scores are non-increasing
(distance ascending), and at most `limit` (default 10) results are
returned. -/
theorem vectorSearch_spec (dist : List ℚ → List ℚ → ℚ) (table : List MemRow)
    (q : List ℚ) (opts : SearchOptionsM) :
    (∀ res ∈ vectorSearch dist table q opts, ∃ r ∈ table, ∃ emb : List ℚ,
      r.embedding = some emb ∧ res.memory = parseMemoryRow r ∧
      res.score = 1 - dist emb q ∧
      opts.threshold.getD (3 / 10) ≤ res.score ∧
      res.matchType = MatchType.vector ∧
      ∀ c, opts.collection = some c → res.memory.collection = c) ∧
    (vectorSearch dist table q opts).Pairwise (fun a b => b.score ≤ a.score) ∧
    (vectorSearch dist table q opts).length ≤ opts.limit.getD 10 := by
  refine ⟨?_, ?_, ?_⟩
  · intro res hres
    obtain ⟨rc, hrc, hconv⟩ := List.mem_map.1 hres
    have hrc2 : rc ∈ (table.filterMap (fun r =>
        match r.embedding with
        | none => none
        | some emb =>
          if (match opts.collection with
              | none => true
              | some c => r.collection == c)
              && decide (opts.threshold.getD (3 / 10) ≤ 1 - dist emb q)
          then some (r, dist emb q) else none)).insertionSort distLE :=
      (List.take_sublist _ _).mem hrc
    have hrc3 := (List.mem_insertionSort distLE).1 hrc2
    obtain ⟨r, hr, hf⟩ := List.mem_filterMap.1 hrc3
    cases hemb : r.embedding with
    | none =>
        rw [hemb] at hf
        cases hf
    | some emb =>
        rw [hemb] at hf
        simp only at hf
        by_cases hcond : ((match opts.collection with
            | none => true
            | some c => r.collection == c)
            && decide (opts.threshold.getD (3 / 10) ≤ 1 - dist emb q)) = true
        · rw [if_pos hcond] at hf
          injection hf with hf2
          rw [Bool.and_eq_true] at hcond
          refine ⟨r, hr, emb, hemb, ?_, ?_, ?_, ?_, ?_⟩
          · rw [← hconv, ← hf2]
          · rw [← hconv, ← hf2]
          · rw [← hconv, ← hf2]
            show opts.threshold.getD (3 / 10) ≤ 1 - dist emb q
            exact of_decide_eq_true hcond.2
          · rw [← hconv]
          · intro c hc
            rw [← hconv, ← hf2]
            show r.collection = c
            have := hcond.1
            rw [hc] at this
            exact beq_iff_eq.1 this
        · rw [if_neg hcond] at hf
          cases hf
  · simp only [vectorSearch]
    rw [List.pairwise_map]
    apply List.Pairwise.imp ?_
      (List.Pairwise.sublist (List.take_sublist _ _)
        (List.sorted_insertionSort distLE _))
    intro a b hab
    show (1 : ℚ) - b.2 ≤ 1 - a.2
    exact sub_le_sub_left hab 1
  · simp only [vectorSearch]
    rw [List.length_map]
    exact List.length_take_le _ _

/-- Witness for C2 on a one-row table with a constant-zero distance:
the result is tagged `vector` and the result count respects the default
limit. -/
theorem vectorSearch_spec_witness :
    (⟨⟨"m1", "hello", "\x7b\x7d", "default", 0, 1⟩, (1 : ℚ),
        MatchType.vector⟩ : SearchResultM).matchType = MatchType.vector ∧
    (vectorSearch (fun _ _ => (0 : ℚ))
        [⟨"m1", "hello", "\x7b\x7d", "default", 0, 1, some [1]⟩]
        [1] ⟨none, none, none⟩).length ≤ 10 := by
  have h := vectorSearch_spec (fun _ _ => (0 : ℚ))
    [⟨"m1", "hello", "\x7b\x7d", "default", 0, 1, some [1]⟩] [1] ⟨none, none, none⟩
  have hev : vectorSearch (fun _ _ => (0 : ℚ))
      [⟨"m1", "hello", "\x7b\x7d", "default", 0, 1, some [1]⟩] [1] ⟨none, none, none⟩
      = [⟨⟨"m1", "hello", "\x7b\x7d", "default", 0, 1⟩, (1 : ℚ), MatchType.vector⟩] := by
    simp only [vectorSearch]
    norm_num [List.filterMap, List.insertionSort, List.orderedInsert, parseMemoryRow]
  obtain ⟨r, hr, emb, hemb, hm, hs, hth, hmt, hcol⟩ :=
    h.1 ⟨⟨"m1", "hello", "\x7b\x7d", "default", 0, 1⟩, (1 : ℚ), MatchType.vector⟩
      (by rw [hev]; exact List.mem_singleton.2 rfl)
  exact ⟨hmt, h.2.2⟩

end SwarmSpec
